import Mathlib

/-!
# Verification of the Wordle guess-evaluation core

Shallow embedding of the Rust library in `src/lib.rs` (with `src/letters.rs`):
the `Position`/`Letter` value types, guess validation, the duplicate-letter-aware
guess-scoring algorithm of `Game::make_guess`, and the keyboard aggregation of
`Game::update_keyboard`.

Strings are embedded as `List Char`; the byte length used by Rust's `str::len`
is embedded as the sum of UTF-8 sizes.  Rust panics (`unreachable!`, failed
`expect`) are embedded as `none` in an `Option`-returning function.  The
`HashMap<char, _>` keyboard is embedded as an association list whose key set is
meaningful (a lookup of an absent key is a panic, i.e. `none`).
-/

namespace Wordle

/-- Modelled from the spec: the constant `valid_words::ALPHABET` lives in the
`valid_words` module, which is not among the sources; the spec says the keyboard
holds "all 26 letters" A-Z, so the alphabet is the 26 uppercase Latin letters. -/
def ALPHABET : List Char :=
  ['A', 'B', 'C', 'D', 'E', 'F', 'G', 'H', 'I', 'J', 'K', 'L', 'M',
   'N', 'O', 'P', 'Q', 'R', 'S', 'T', 'U', 'V', 'W', 'X', 'Y', 'Z']

/-- Embeds Rust `char::to_ascii_uppercase`: map `a`-`z` (scalar values 97-122)
to the letter 32 lower; leave every other character unchanged. -/
def toAsciiUppercase (c : Char) : Char :=
  if 97 ≤ c.toNat ∧ c.toNat ≤ 122 then Char.ofNat (c.toNat - 32) else c

/-- Embeds Rust `char::is_ascii`: the scalar value is at most `0x7F`. -/
def isAsciiChar (c : Char) : Bool :=
  c.toNat ≤ 0x7F

/-- Embeds Rust `str::len` (UTF-8 byte length) on a string seen as its
list of characters. -/
def utf8Len (s : List Char) : Nat :=
  (s.map Char.utf8Size).sum

/-- Embeds `letters::Position` from `src/letters.rs`. -/
inductive Position where
  | NotInWord
  | WrongPosition
  | Correct
deriving DecidableEq, Fintype

/-- Embeds `letters::Letter` from `src/letters.rs`. -/
structure Letter where
  letter : Char
  position : Position
deriving DecidableEq

/-- Embeds `Letter::new` from `src/letters.rs`: the character is automatically
converted to uppercase. -/
def Letter.new (letter : Char) (position : Position) : Letter :=
  { letter := toAsciiUppercase letter, position := position }

/-- Embeds `Letter::simple_check_letter_pair` from `src/letters.rs`. -/
def Letter.simple_check_letter_pair (letter expected_letter : Char)
    (word : List Char) : Option Letter :=
  if letter = expected_letter then
    some { letter := letter, position := Position.Correct }
  else if !word.contains letter then
    some { letter := letter, position := Position.NotInWord }
  else
    none

/-- Embeds `GuessError` from `src/lib.rs`. -/
inductive GuessError where
  | IncludesNonAscii
  | InvalidWord
  | WrongWordLength
deriving DecidableEq

/-- Embeds `Game` from `src/lib.rs`.  The `HashMap<char, Option<Position>>`
keyboard is embedded as an association list: the presence of a key matters
(absent keys make `update_keyboard` panic), and `new_keyboard_map` fixes the
key set to `ALPHABET`. -/
structure Game where
  word : List Char
  keyboard : List (Char × Option Position)
deriving DecidableEq

/-- Embeds `Game::new_keyboard_map` from `src/lib.rs`: every character of
`ALPHABET` is mapped to `None`. -/
def Game.new_keyboard_map : List (Char × Option Position) :=
  ALPHABET.map (fun c => (c, none))

/-- Embeds `Game::is_valid_guess` from `src/lib.rs`.  The word list
`valid_words::VALID_WORDS` is not among the sources (modelled from the spec as
a parameter: a static list of acceptable 5-letter uppercase words). -/
def Game.is_valid_guess (valid_words : List (List Char)) (guess : List Char) :
    Except GuessError Unit :=
  let guess := guess.map toAsciiUppercase
  if !guess.all isAsciiChar then
    Except.error GuessError.IncludesNonAscii
  else if utf8Len guess ≠ 5 then
    Except.error GuessError.WrongWordLength
  else if !valid_words.contains guess then
    Except.error GuessError.InvalidWord
  else
    Except.ok ()

/-- Embeds the construction of the `optional_letters` array in
`Game::make_guess`: the guess is zipped with the target word and each pair is
simply checked; the Rust indexes `pairs[0]` … `pairs[4]`, so exactly the first
five pairs are used. -/
def optionalLetters (word guess : List Char) : List (Char × Option Letter) :=
  ((guess.zip word).take 5).map
    (fun p => (p.1, Letter.simple_check_letter_pair p.1 p.2 word))

/-- Embeds the count stored in `correct_letters_map` in `Game::make_guess`:
how many of the simply-checked letters were finalized as `Correct` for the
character `c`. -/
def correct_letters_count (optional_letters : List (Char × Option Letter))
    (c : Char) : Nat :=
  (optional_letters.filter (fun l =>
    match l.2 with
    | none => false
    | some ll => ll.letter = c ∧ ll.position = Position.Correct)).length

/-- Embeds the closure mapped over `optional_letters` in `Game::make_guess`,
run left to right: finalized letters pass through; a deferred letter is
resolved against the remaining capacity (the mutable second component of
`correct_letters_map`, embedded as the function `remaining`).  The
`unreachable!` arm of the `match` on `Ordering::Less`, and the `expect` on a
character outside the alphabet maps, are embedded as `none`. -/
def score_deferred (word : List Char) (correct_counts : Char → Nat) :
    List (Char × Option Letter) → (Char → Nat) → Option (List Letter)
  | [], _ => some []
  | (orig_char, opt_letter) :: rest, remaining =>
    match opt_letter with
    | some l => (score_deferred word correct_counts rest remaining).map
        (fun ls => l :: ls)
    | none =>
      if orig_char ∈ ALPHABET then
        match compare (word.count orig_char) (correct_counts orig_char) with
        | Ordering.gt =>
          if remaining orig_char > 0 then
            (score_deferred word correct_counts rest
              (fun c => if c = orig_char then remaining orig_char - 1
                        else remaining c)).map
              (fun ls => Letter.new orig_char Position.WrongPosition :: ls)
          else
            (score_deferred word correct_counts rest remaining).map
              (fun ls => Letter.new orig_char Position.NotInWord :: ls)
        | Ordering.eq =>
          (score_deferred word correct_counts rest remaining).map
            (fun ls => Letter.new orig_char Position.NotInWord :: ls)
        | Ordering.lt => none
      else none

/-- Embeds the comparison of `ordered_position::OrderedPosition` from
`src/lib.rs` (`None` lowest, then `NotInWord`, `WrongPosition`, `Correct`). -/
def cmpOrderedPosition : Option Position → Option Position → Ordering
  | none, none => Ordering.eq
  | none, _ => Ordering.lt
  | some Position.NotInWord, none => Ordering.gt
  | some Position.NotInWord, some Position.NotInWord => Ordering.eq
  | some Position.NotInWord, some Position.WrongPosition => Ordering.lt
  | some Position.NotInWord, some Position.Correct => Ordering.lt
  | some Position.WrongPosition, none => Ordering.gt
  | some Position.WrongPosition, some Position.NotInWord => Ordering.gt
  | some Position.WrongPosition, some Position.WrongPosition => Ordering.eq
  | some Position.WrongPosition, some Position.Correct => Ordering.lt
  | some Position.Correct, some Position.Correct => Ordering.eq
  | some Position.Correct, _ => Ordering.gt

/-- Embeds `Game::update_keyboard` from `src/lib.rs`: for each letter of the
guess result, overwrite its keyboard entry when the new position compares
strictly greater; a lookup of an absent key is an `expect` panic (`none`). -/
def Game.update_keyboard :
    List (Char × Option Position) → List Letter →
    Option (List (Char × Option Position))
  | keyboard, [] => some keyboard
  | keyboard, letter :: rest =>
    match keyboard.lookup letter.letter with
    | none => none
    | some current_pos =>
      let keyboard :=
        if cmpOrderedPosition (some letter.position) current_pos
            = Ordering.gt then
          keyboard.map (fun p =>
            if p.1 = letter.letter then (p.1, some letter.position) else p)
        else
          keyboard
      Game.update_keyboard keyboard rest

/-- Embeds `Game::make_guess` from `src/lib.rs`.  The result is `none` when
the Rust code panics, `some (Except.error e, g)` when validation fails (the
game state `g` is returned unchanged), and `some (Except.ok w, g)` on success
with the scored word `w` and the game with its keyboard updated. -/
def Game.make_guess (valid_words : List (List Char)) (game : Game)
    (guess : List Char) :
    Option (Except GuessError (List Letter) × Game) :=
  match Game.is_valid_guess valid_words guess with
  | Except.error e => some (Except.error e, game)
  | Except.ok _ =>
    let guess := guess.map toAsciiUppercase
    if (guess.zip game.word).length < 5 then
      none
    else
      let optional_letters := optionalLetters game.word guess
      let correct_counts := fun c => correct_letters_count optional_letters c
      let remaining := fun c => game.word.count c - correct_counts c
      match score_deferred game.word correct_counts optional_letters
          remaining with
      | none => none
      | some word =>
        match Game.update_keyboard game.keyboard word with
        | none => none
        | some keyboard =>
          some (Except.ok word, { word := game.word, keyboard := keyboard })

/-- Count, in a scored word, of the positions whose letter is `L` and whose
classification is `WrongPosition` or `Correct` (the spec's vocabulary). -/
def countLetterWPC (L : Char) (w : List Letter) : Nat :=
  w.countP (fun l => l.letter = L ∧
    (l.position = Position.WrongPosition ∨ l.position = Position.Correct))

/-- Count of `Correct` classifications in a scored word. -/
def countCorrect (w : List Letter) : Nat :=
  w.countP (fun l => l.position = Position.Correct)

/-- Relation between one entry of `optional_letters` and the letter finally
produced for that position by the closure mapped in `Game::make_guess`:
finalized letters pass through, deferred ones keep their (uppercased)
character and are never classified `Correct`. -/
def ScoredAt (p : Char × Option Letter) (l : Letter) : Prop :=
  match p.2 with
  | some l0 => l = l0
  | none => l.letter = toAsciiUppercase p.1 ∧ l.position ≠ Position.Correct

/-- Predicate on an `optional_letters` entry: it was finalized with letter `L`
and classification `WrongPosition` or `Correct`. -/
def wpcPred (L : Char) (p : Char × Option Letter) : Bool :=
  match p.2 with
  | some l => l.letter = L ∧ (l.position = Position.WrongPosition
      ∨ l.position = Position.Correct)
  | none => false

/-- Predicate on an `optional_letters` entry: it was finalized with letter `L`
and classification `Correct` (the predicate of `correct_letters_map`). -/
def correctPred (L : Char) (p : Char × Option Letter) : Bool :=
  match p.2 with
  | some l => l.letter = L ∧ l.position = Position.Correct
  | none => false

/-- Predicate on an `optional_letters` entry: it was finalized as `Correct`. -/
def correctSomePred (p : Char × Option Letter) : Bool :=
  match p.2 with
  | some l => l.position = Position.Correct
  | none => false

/-- Modelled from the spec: the acceptable-guess list (the missing
`valid_words::VALID_WORDS`) is stored as uppercase, ASCII, exactly-5-letter
strings. -/
def wellFormedWordList (valid_words : List (List Char)) : Prop :=
  ∀ w ∈ valid_words, w.length = 5 ∧ ∀ c ∈ w, c ∈ ALPHABET

instance (valid_words : List (List Char)) :
    Decidable (wellFormedWordList valid_words) := by
  unfold wellFormedWordList
  infer_instance

/-- A small concrete acceptable-guess list used to instantiate theorems. -/
def testWords : List (List Char) :=
  [['B', 'L', 'E', 'E', 'P'], ['E', 'E', 'R', 'I', 'E'], ['D', 'Y', 'S', 'O', 'N']]

/-- A concrete game whose secret word is `BLEEP` and whose keyboard is fresh. -/
def gameBleep : Game :=
  { word := ['B', 'L', 'E', 'E', 'P'], keyboard := Game.new_keyboard_map }

/-- A concrete game whose secret word is `EERIE` and whose keyboard is fresh. -/
def gameEerie : Game :=
  { word := ['E', 'E', 'R', 'I', 'E'], keyboard := Game.new_keyboard_map }

deriving instance DecidableEq for Except

/-- The scored word produced by guessing `EERIE` against secret `BLEEP`. -/
def wordEerieScored : List Letter :=
  [{ letter := 'E', position := Position.WrongPosition },
   { letter := 'E', position := Position.WrongPosition },
   { letter := 'R', position := Position.NotInWord },
   { letter := 'I', position := Position.NotInWord },
   { letter := 'E', position := Position.NotInWord }]

/-- The scored word produced by guessing `BLEEP` against secret `EERIE`. -/
def wordBleepScored : List Letter :=
  [{ letter := 'B', position := Position.NotInWord },
   { letter := 'L', position := Position.NotInWord },
   { letter := 'E', position := Position.WrongPosition },
   { letter := 'E', position := Position.WrongPosition },
   { letter := 'P', position := Position.NotInWord }]

/-- The game state reached from `gameBleep` after guessing `EERIE`. -/
def gameBleepAfter : Game :=
  { word := ['B', 'L', 'E', 'E', 'P'],
    keyboard :=
      [('A', none), ('B', none), ('C', none), ('D', none),
       ('E', some Position.WrongPosition), ('F', none), ('G', none),
       ('H', none), ('I', some Position.NotInWord), ('J', none), ('K', none),
       ('L', none), ('M', none), ('N', none), ('O', none), ('P', none),
       ('Q', none), ('R', some Position.NotInWord), ('S', none), ('T', none),
       ('U', none), ('V', none), ('W', none), ('X', none), ('Y', none),
       ('Z', none)] }

/-- The game state reached from `gameEerie` after guessing `BLEEP`. -/
def gameEerieAfter : Game :=
  { word := ['E', 'E', 'R', 'I', 'E'],
    keyboard :=
      [('A', none), ('B', some Position.NotInWord), ('C', none), ('D', none),
       ('E', some Position.WrongPosition), ('F', none), ('G', none),
       ('H', none), ('I', none), ('J', none), ('K', none),
       ('L', some Position.NotInWord), ('M', none), ('N', none), ('O', none),
       ('P', some Position.NotInWord), ('Q', none), ('R', none), ('S', none),
       ('T', none), ('U', none), ('V', none), ('W', none), ('X', none),
       ('Y', none), ('Z', none)] }

/-! ## Character-level lemmas -/

theorem toNat_ofNat_of_valid {n : Nat} (h : n < 55296) : (Char.ofNat n).toNat = n := by
  have hv : n.isValidChar := Or.inl h
  simp [Char.ofNat, dif_pos hv, Char.ofNatAux, Char.toNat, UInt32.toNat]

theorem toNat_toAsciiUppercase (c : Char) :
    (toAsciiUppercase c).toNat =
      if 97 ≤ c.toNat ∧ c.toNat ≤ 122 then c.toNat - 32 else c.toNat := by
  unfold toAsciiUppercase
  split
  · next h => exact toNat_ofNat_of_valid (by omega)
  · rfl

theorem isAsciiChar_toAsciiUppercase (c : Char) :
    isAsciiChar (toAsciiUppercase c) = isAsciiChar c := by
  unfold isAsciiChar
  rw [toNat_toAsciiUppercase]
  simp only [decide_eq_decide]
  split <;> omega

theorem toAsciiUppercase_eq_self {c : Char} (h : ¬(97 ≤ c.toNat ∧ c.toNat ≤ 122)) :
    toAsciiUppercase c = c := by
  unfold toAsciiUppercase
  rw [if_neg h]

theorem toAsciiUppercase_idem (c : Char) :
    toAsciiUppercase (toAsciiUppercase c) = toAsciiUppercase c := by
  by_cases h : 97 ≤ c.toNat ∧ c.toNat ≤ 122
  · have h2 : (toAsciiUppercase c).toNat = c.toNat - 32 := by
      rw [toNat_toAsciiUppercase, if_pos h]
    exact toAsciiUppercase_eq_self (by omega)
  · rw [toAsciiUppercase_eq_self h, toAsciiUppercase_eq_self h]

theorem utf8Size_of_ascii {c : Char} (h : isAsciiChar c = true) : c.utf8Size = 1 := by
  have h' : c.toNat ≤ 127 := by simpa [isAsciiChar] using h
  have hle : c.val ≤ UInt32.ofNatCore 0x7F (by decide) := by
    rw [UInt32.le_def, BitVec.le_def]
    exact h'
  simp only [Char.utf8Size]
  rw [if_pos hle]

theorem utf8Len_eq_length {s : List Char} (h : s.all isAsciiChar = true) :
    utf8Len s = s.length := by
  induction s with
  | nil => rfl
  | cons a s ih =>
    rw [List.all_cons, Bool.and_eq_true] at h
    simp only [utf8Len, List.map_cons, List.sum_cons, List.length_cons] at *
    rw [utf8Size_of_ascii h.1, ih h.2]
    omega

theorem alphabet_ascii : ∀ c ∈ ALPHABET, isAsciiChar c = true := by decide

theorem alphabet_fixed_upper : ∀ c ∈ ALPHABET, toAsciiUppercase c = c := by decide

theorem all_isAsciiChar_map_upper (s : List Char) :
    (s.map toAsciiUppercase).all isAsciiChar = s.all isAsciiChar := by
  induction s with
  | nil => rfl
  | cons a s ih => simp [List.all_cons, isAsciiChar_toAsciiUppercase, ih]

theorem map_upper_eq_self {s : List Char}
    (h : ∀ c ∈ s, toAsciiUppercase c = c) : s.map toAsciiUppercase = s := by
  induction s with
  | nil => rfl
  | cons a s ih =>
    rw [List.map_cons, h a (by simp), ih (fun c hc => h c (by simp [hc]))]

/-! ## Validation lemmas -/

theorem is_valid_guess_ok_of_mem_upper {VW : List (List Char)} {s : List Char}
    (hVW : wellFormedWordList VW) (hmem : s.map toAsciiUppercase ∈ VW) :
    Game.is_valid_guess VW s = Except.ok () := by
  obtain ⟨hlen, hchars⟩ := hVW _ hmem
  have hascii : (s.map toAsciiUppercase).all isAsciiChar = true := by
    rw [List.all_eq_true]
    intro c hc
    exact alphabet_ascii c (hchars c hc)
  have hlen5 : utf8Len (s.map toAsciiUppercase) = 5 := by
    rw [utf8Len_eq_length hascii, hlen]
  have hcont : (List.contains VW (s.map toAsciiUppercase)) = true := by
    simpa [List.contains] using hmem
  simp only [Game.is_valid_guess]
  simp [hascii, hlen5, hcont, hmem]

theorem of_is_valid_guess_ok {VW : List (List Char)} {guess : List Char}
    (h : Game.is_valid_guess VW guess = Except.ok ()) :
    (guess.map toAsciiUppercase).all isAsciiChar = true ∧
    utf8Len (guess.map toAsciiUppercase) = 5 ∧
    guess.map toAsciiUppercase ∈ VW := by
  simp only [Game.is_valid_guess] at h
  by_cases h1 : (guess.map toAsciiUppercase).all isAsciiChar = true
  · rw [h1] at h
    simp only [Bool.not_true, Bool.false_eq_true, if_false] at h
    by_cases h2 : utf8Len (guess.map toAsciiUppercase) = 5
    · rw [if_neg (by simpa using h2)] at h
      by_cases h3 : (List.contains VW (guess.map toAsciiUppercase)) = true
      · exact ⟨h1, h2, by simpa [List.contains] using h3⟩
      · rw [Bool.not_eq_true] at h3
        rw [h3] at h
        simp at h
    · rw [if_pos (by simpa using h2)] at h
      simp at h
  · rw [Bool.not_eq_true] at h1
    rw [h1] at h
    simp at h

/-! ## Claim C5: validation checks run in a fixed order -/

/-- C5.  Guess validation performs its checks in a fixed order: ASCII-ness
first, then (byte) length exactly 5, then membership in the acceptable-word
list, so for any input failing several checks the first failing check's error
is returned.  In particular a non-ASCII string of any length is reported as
`IncludesNonAscii`, never as `WrongWordLength`. -/
theorem is_valid_guess_check_order (VW : List (List Char)) (guess : List Char) :
    (guess.all isAsciiChar ≠ true →
      Game.is_valid_guess VW guess = Except.error GuessError.IncludesNonAscii)
    ∧ (guess.all isAsciiChar = true → guess.length ≠ 5 →
      Game.is_valid_guess VW guess = Except.error GuessError.WrongWordLength)
    ∧ (guess.all isAsciiChar = true → guess.length = 5 →
      guess.map toAsciiUppercase ∉ VW →
      Game.is_valid_guess VW guess = Except.error GuessError.InvalidWord) := by
  refine ⟨?_, ?_, ?_⟩
  · intro h
    have hf0 : guess.all isAsciiChar = false := by
      cases hb : guess.all isAsciiChar
      · rfl
      · exact absurd hb h
    have hf : (guess.map toAsciiUppercase).all isAsciiChar = false := by
      rw [all_isAsciiChar_map_upper]
      exact hf0
    simp only [Game.is_valid_guess]
    simp [hf]
  · intro h hlen
    have hup : (guess.map toAsciiUppercase).all isAsciiChar = true := by
      rw [all_isAsciiChar_map_upper]
      exact h
    have hu : utf8Len (guess.map toAsciiUppercase) = guess.length := by
      rw [utf8Len_eq_length hup, List.length_map]
    simp only [Game.is_valid_guess]
    simp [hup, hu, hlen]
  · intro h hlen hmem
    have hup : (guess.map toAsciiUppercase).all isAsciiChar = true := by
      rw [all_isAsciiChar_map_upper]
      exact h
    have hu : utf8Len (guess.map toAsciiUppercase) = 5 := by
      rw [utf8Len_eq_length hup, List.length_map, hlen]
    have hcont : (List.contains VW (guess.map toAsciiUppercase)) = false := by
      simpa [List.contains] using hmem
    simp only [Game.is_valid_guess]
    simp [hup, hu, hcont, hmem]

/-- Witness for C5 at concrete inputs: the overlong non-ASCII `Östers` is
reported as non-ASCII (not wrong-length), `hi` as wrong-length, and the
5-letter ASCII non-word `olleh` as not-a-word. -/
theorem is_valid_guess_check_order_witness :
    Game.is_valid_guess testWords ['Ö', 's', 't', 'e', 'r', 's']
      = Except.error GuessError.IncludesNonAscii
    ∧ Game.is_valid_guess testWords ['h', 'i']
      = Except.error GuessError.WrongWordLength
    ∧ Game.is_valid_guess testWords ['o', 'l', 'l', 'e', 'h']
      = Except.error GuessError.InvalidWord :=
  ⟨(is_valid_guess_check_order testWords _).1 (by decide),
   (is_valid_guess_check_order testWords _).2.1 (by decide) (by decide),
   (is_valid_guess_check_order testWords _).2.2 (by decide) (by decide) (by decide)⟩

/-! ## Claim C9: round trip through the word list -/

/-- C9.  Any word of a well-formed acceptable-word list validates successfully,
and validation is case-insensitive: any string whose uppercased form is in the
list validates successfully as well. -/
theorem is_valid_guess_round_trip (VW : List (List Char))
    (hVW : wellFormedWordList VW) :
    (∀ W ∈ VW, Game.is_valid_guess VW W = Except.ok ())
    ∧ (∀ s : List Char, s.map toAsciiUppercase ∈ VW →
        Game.is_valid_guess VW s = Except.ok ()) := by
  constructor
  · intro W hW
    have hfix : W.map toAsciiUppercase = W := by
      obtain ⟨-, hchars⟩ := hVW W hW
      exact map_upper_eq_self (fun c hc => alphabet_fixed_upper c (hchars c hc))
    exact is_valid_guess_ok_of_mem_upper hVW (by rw [hfix]; exact hW)
  · intro s hs
    exact is_valid_guess_ok_of_mem_upper hVW hs

/-- Witness for C9: the uppercase word `BLEEP` of the concrete list validates,
and so does its lowercase form `bleep`. -/
theorem is_valid_guess_round_trip_witness :
    Game.is_valid_guess testWords ['B', 'L', 'E', 'E', 'P'] = Except.ok ()
    ∧ Game.is_valid_guess testWords ['b', 'l', 'e', 'e', 'p'] = Except.ok () :=
  ⟨(is_valid_guess_round_trip testWords (by decide)).1 _ (by decide),
   (is_valid_guess_round_trip testWords (by decide)).2 _ (by decide)⟩

/-! ## Claim C6: validation failure leaves the game unchanged -/

/-- C6.  When validation fails, `make_guess` returns the corresponding
validation error and the game state it returns is exactly the input state:
the secret word and every keyboard entry are unchanged. -/
theorem make_guess_error_preserves_state (VW : List (List Char)) (game : Game)
    (guess : List Char) (e : GuessError)
    (h : Game.is_valid_guess VW guess = Except.error e) :
    Game.make_guess VW game guess = some (Except.error e, game) := by
  simp only [Game.make_guess, h]

/-- Witness for C6: the invalid guess `hi` leaves the concrete `BLEEP` game
untouched and reports the wrong-length error. -/
theorem make_guess_error_preserves_state_witness :
    Game.make_guess testWords gameBleep ['h', 'i']
      = some (Except.error GuessError.WrongWordLength, gameBleep) :=
  make_guess_error_preserves_state testWords gameBleep ['h', 'i']
    GuessError.WrongWordLength (by decide)

/-! ## Lemmas about the scoring fold -/

theorem map_cons_eq_some {α : Type} {o : Option (List α)} {a : α} {ls : List α}
    (h : o.map (fun xs => a :: xs) = some ls) :
    ∃ tl, o = some tl ∧ ls = a :: tl := by
  cases o with
  | none => simp at h
  | some tl =>
    refine ⟨tl, rfl, ?_⟩
    simpa using h.symm

theorem score_deferred_forall2 {word : List Char} {cmap : Char → Nat}
    {opts : List (Char × Option Letter)} {rem : Char → Nat} {ls : List Letter}
    (h : score_deferred word cmap opts rem = some ls) :
    List.Forall₂ ScoredAt opts ls := by
  induction opts generalizing rem ls with
  | nil =>
    simp only [score_deferred, Option.some.injEq] at h
    subst h
    exact List.Forall₂.nil
  | cons p rest ih =>
    obtain ⟨orig, opt⟩ := p
    cases opt with
    | some l =>
      simp only [score_deferred] at h
      obtain ⟨tl, hrec, rfl⟩ := map_cons_eq_some h
      exact List.Forall₂.cons (by simp [ScoredAt]) (ih hrec)
    | none =>
      simp only [score_deferred] at h
      by_cases halpha : orig ∈ ALPHABET
      · rw [if_pos halpha] at h
        split at h
        · split at h
          · obtain ⟨tl, hrec, rfl⟩ := map_cons_eq_some h
            exact List.Forall₂.cons (by simp [ScoredAt, Letter.new]) (ih hrec)
          · obtain ⟨tl, hrec, rfl⟩ := map_cons_eq_some h
            exact List.Forall₂.cons (by simp [ScoredAt, Letter.new]) (ih hrec)
        · obtain ⟨tl, hrec, rfl⟩ := map_cons_eq_some h
          exact List.Forall₂.cons (by simp [ScoredAt, Letter.new]) (ih hrec)
        · simp at h
      · rw [if_neg halpha] at h
        simp at h

theorem countP_eq_of_forall2 {α β : Type} {R : α → β → Prop} {p : α → Bool}
    {q : β → Bool} {xs : List α} {ys : List β} (h : List.Forall₂ R xs ys)
    (hpq : ∀ a b, R a b → p a = q b) : xs.countP p = ys.countP q := by
  induction h with
  | nil => rfl
  | cons hr _ ih => simp [List.countP_cons, ih, hpq _ _ hr]

theorem score_deferred_countWPC {word : List Char} {cmap : Char → Nat} (L : Char)
    {opts : List (Char × Option Letter)} {rem : Char → Nat} {ls : List Letter}
    (h : score_deferred word cmap opts rem = some ls)
    (hupper : ∀ p ∈ opts, toAsciiUppercase p.1 = p.1) :
    countLetterWPC L ls ≤ opts.countP (wpcPred L) + rem L := by
  induction opts generalizing rem ls with
  | nil =>
    simp only [score_deferred, Option.some.injEq] at h
    subst h
    simp [countLetterWPC]
  | cons p rest ih =>
    obtain ⟨orig, opt⟩ := p
    have hupper1 : toAsciiUppercase orig = orig := hupper (orig, opt) (by simp)
    have hupperR : ∀ p ∈ rest, toAsciiUppercase p.1 = p.1 :=
      fun p hp => hupper p (by simp [hp])
    cases opt with
    | some l =>
      simp only [score_deferred] at h
      obtain ⟨tl, hrec, rfl⟩ := map_cons_eq_some h
      have hih := ih hrec hupperR
      simp only [countLetterWPC, List.countP_cons, wpcPred] at hih ⊢
      split <;> omega
    | none =>
      simp only [score_deferred] at h
      by_cases halpha : orig ∈ ALPHABET
      · rw [if_pos halpha] at h
        split at h
        · split at h
          · rename_i hpos
            obtain ⟨tl, hrec, rfl⟩ := map_cons_eq_some h
            have hih := ih hrec hupperR
            simp only [countLetterWPC, List.countP_cons, wpcPred, Letter.new,
              hupper1] at hih ⊢
            by_cases hL : orig = L
            · subst hL
              rw [if_pos rfl] at hih
              split
              · omega
              · rename_i hc
                simp at hc
            · rw [if_neg (fun hc => hL hc.symm)] at hih
              split
              · rename_i hc
                simp only [decide_eq_true_eq] at hc
                exact absurd hc.1 hL
              · split
                · rename_i hc
                  simp at hc
                · omega
          · obtain ⟨tl, hrec, rfl⟩ := map_cons_eq_some h
            have hih := ih hrec hupperR
            simp only [countLetterWPC, List.countP_cons, wpcPred, Letter.new,
              hupper1] at hih ⊢
            split
            · rename_i hc
              simp at hc
            · split
              · rename_i hc
                simp at hc
              · omega
        · obtain ⟨tl, hrec, rfl⟩ := map_cons_eq_some h
          have hih := ih hrec hupperR
          simp only [countLetterWPC, List.countP_cons, wpcPred, Letter.new,
            hupper1] at hih ⊢
          split
          · rename_i hc
            simp at hc
          · split
            · rename_i hc
              simp at hc
            · omega
        · simp at h
      · rw [if_neg halpha] at h
        simp at h

theorem score_deferred_isSome {word : List Char} {cmap : Char → Nat}
    {opts : List (Char × Option Letter)} (rem : Char → Nat)
    (halpha : ∀ p ∈ opts, p.2 = none → p.1 ∈ ALPHABET)
    (hinv : ∀ p ∈ opts, p.2 = none → cmap p.1 ≤ word.count p.1) :
    ∃ ls, score_deferred word cmap opts rem = some ls := by
  induction opts generalizing rem with
  | nil => exact ⟨[], rfl⟩
  | cons p rest ih =>
    obtain ⟨orig, opt⟩ := p
    have halphaR : ∀ p ∈ rest, p.2 = none → p.1 ∈ ALPHABET :=
      fun p hp => halpha p (by simp [hp])
    have hinvR : ∀ p ∈ rest, p.2 = none → cmap p.1 ≤ word.count p.1 :=
      fun p hp => hinv p (by simp [hp])
    cases opt with
    | some l =>
      obtain ⟨tl, htl⟩ := ih rem halphaR hinvR
      exact ⟨l :: tl, by simp [score_deferred, htl]⟩
    | none =>
      have h1 : orig ∈ ALPHABET := halpha (orig, none) (by simp) rfl
      have h2 : cmap orig ≤ word.count orig := hinv (orig, none) (by simp) rfl
      have hnlt : compare (word.count orig) (cmap orig) ≠ Ordering.lt := by
        intro hc
        rw [Nat.compare_eq_lt] at hc
        omega
      simp only [score_deferred, if_pos h1]
      cases hcmp : compare (word.count orig) (cmap orig) with
      | lt => exact absurd hcmp hnlt
      | eq =>
        obtain ⟨tl, htl⟩ := ih rem halphaR hinvR
        exact ⟨Letter.new orig Position.NotInWord :: tl, by simp [htl]⟩
      | gt =>
        by_cases hpos : rem orig > 0
        · obtain ⟨tl, htl⟩ := ih
            (fun c => if c = orig then rem orig - 1 else rem c) halphaR hinvR
          exact ⟨Letter.new orig Position.WrongPosition :: tl,
            by simp [hpos, htl]⟩
        · obtain ⟨tl, htl⟩ := ih rem halphaR hinvR
          exact ⟨Letter.new orig Position.NotInWord :: tl, by simp [hpos, htl]⟩

theorem countP_zip_le_count (g w : List Char) (L : Char) :
    (g.zip w).countP (fun p => p.1 = p.2 ∧ p.1 = L) ≤ w.count L := by
  induction g generalizing w with
  | nil => simp
  | cons a g ih =>
    cases w with
    | nil => simp
    | cons b w =>
      have := ih w
      simp only [List.zip_cons_cons, List.countP_cons, List.count_cons]
      split
      · rename_i hc
        simp only [decide_eq_true_eq] at hc
        have hb : (b == L) = true := by
          rw [beq_iff_eq]
          rw [← hc.1, hc.2]
        rw [if_pos hb]
        omega
      · split <;> omega

/-! ## Lemmas about the simple check and optional letters -/

theorem simple_check_some {a b : Char} {word : List Char} {l : Letter}
    (h : Letter.simple_check_letter_pair a b word = some l) :
    l.letter = a ∧ l.position ≠ Position.WrongPosition := by
  unfold Letter.simple_check_letter_pair at h
  split at h
  · obtain rfl := Option.some.inj h
    exact ⟨rfl, by simp⟩
  · split at h
    · obtain rfl := Option.some.inj h
      exact ⟨rfl, by simp⟩
    · simp at h

theorem simple_check_correctPred (a b L : Char) (word : List Char) :
    correctPred L (a, Letter.simple_check_letter_pair a b word)
      = decide (a = b ∧ a = L) := by
  unfold Letter.simple_check_letter_pair
  by_cases hab : a = b
  · subst hab
    rw [if_pos rfl]
    simp [correctPred]
  · rw [if_neg hab]
    by_cases hw : (!word.contains a) = true
    · rw [if_pos hw]
      simp [correctPred, hab]
    · rw [if_neg hw]
      simp [correctPred, hab]

theorem simple_check_correctSomePred (a b : Char) (word : List Char) :
    correctSomePred (a, Letter.simple_check_letter_pair a b word)
      = decide (a = b) := by
  unfold Letter.simple_check_letter_pair
  by_cases hab : a = b
  · subst hab
    rw [if_pos rfl]
    simp [correctSomePred]
  · rw [if_neg hab]
    by_cases hw : (!word.contains a) = true
    · rw [if_pos hw]
      simp [correctSomePred, hab]
    · rw [if_neg hw]
      simp [correctSomePred, hab]

theorem correct_letters_count_eq_countP
    (opts : List (Char × Option Letter)) (L : Char) :
    correct_letters_count opts L = opts.countP (correctPred L) := by
  rw [correct_letters_count, ← List.countP_eq_length_filter]
  apply List.countP_congr
  intro p hp
  unfold correctPred
  cases p.2 <;> simp

theorem correct_letters_count_le (word g : List Char) (L : Char) :
    correct_letters_count (optionalLetters word g) L ≤ word.count L := by
  rw [correct_letters_count_eq_countP]
  unfold optionalLetters
  rw [List.countP_map]
  have hfun : ((correctPred L) ∘
      (fun (p : Char × Char) => (p.1, Letter.simple_check_letter_pair p.1 p.2 word)))
      = (fun (p : Char × Char) => decide (p.1 = p.2 ∧ p.1 = L)) :=
    funext fun p => simple_check_correctPred p.1 p.2 L word
  rw [hfun]
  exact le_trans ((List.take_sublist 5 _).countP_le _) (countP_zip_le_count g word L)

theorem countP_wpc_eq_correct (word g : List Char) (L : Char) :
    (optionalLetters word g).countP (wpcPred L)
      = (optionalLetters word g).countP (correctPred L) := by
  apply List.countP_congr
  intro p hp
  unfold optionalLetters at hp
  obtain ⟨q, hq, rfl⟩ := List.mem_map.mp hp
  unfold wpcPred correctPred
  cases hs : Letter.simple_check_letter_pair q.1 q.2 word with
  | none => simp
  | some l =>
    have hnwp := (simple_check_some hs).2
    simp [hnwp]

theorem optionalLetters_fst_mem {word g : List Char}
    {p : Char × Option Letter} (hp : p ∈ optionalLetters word g) : p.1 ∈ g := by
  unfold optionalLetters at hp
  obtain ⟨q, hq, rfl⟩ := List.mem_map.mp hp
  exact (List.of_mem_zip (List.mem_of_mem_take hq)).1

theorem mem_map_upper_fixed {g0 : List Char} {c : Char}
    (hc : c ∈ g0.map toAsciiUppercase) : toAsciiUppercase c = c := by
  obtain ⟨x, _, rfl⟩ := List.mem_map.mp hc
  exact toAsciiUppercase_idem x

theorem make_guess_some_elim {VW : List (List Char)} {game : Game}
    {guess : List Char} {r : Except GuessError (List Letter)} {game' : Game}
    (h : Game.make_guess VW game guess = some (r, game')) :
    (∃ e, r = Except.error e ∧ game' = game
      ∧ Game.is_valid_guess VW guess = Except.error e) ∨
    (∃ w, r = Except.ok w
      ∧ Game.is_valid_guess VW guess = Except.ok ()
      ∧ score_deferred game.word
          (fun c => correct_letters_count
            (optionalLetters game.word (guess.map toAsciiUppercase)) c)
          (optionalLetters game.word (guess.map toAsciiUppercase))
          (fun c => game.word.count c - correct_letters_count
            (optionalLetters game.word (guess.map toAsciiUppercase)) c)
          = some w
      ∧ Game.update_keyboard game.keyboard w = some game'.keyboard
      ∧ game'.word = game.word) := by
  unfold Game.make_guess at h
  cases hv : Game.is_valid_guess VW guess with
  | error e =>
    rw [hv] at h
    left
    obtain ⟨h1, h2⟩ := Prod.mk.injEq .. ▸ Option.some.inj h
    exact ⟨e, h1.symm, h2.symm, rfl⟩
  | ok u =>
    obtain rfl : u = () := rfl
    rw [hv] at h
    right
    simp only at h
    split at h
    · simp at h
    · split at h
      · simp at h
      · rename_i w0 hs
        split at h
        · simp at h
        · rename_i kb hk
          obtain ⟨h1, h2⟩ := Prod.mk.injEq .. ▸ Option.some.inj h
          refine ⟨w0, h1.symm, rfl, hs, ?_, ?_⟩
          · rw [← h2]
            exact hk
          · rw [← h2]

theorem cmpOP_not_gt_refl : ∀ a : Option Position,
    cmpOrderedPosition a a ≠ Ordering.gt := by decide

theorem cmpOP_gt_asymm : ∀ a b : Option Position,
    cmpOrderedPosition a b = Ordering.gt →
    cmpOrderedPosition b a ≠ Ordering.gt := by decide

theorem cmpOP_not_gt_trans : ∀ a b c : Option Position,
    cmpOrderedPosition a b ≠ Ordering.gt →
    cmpOrderedPosition b c ≠ Ordering.gt →
    cmpOrderedPosition a c ≠ Ordering.gt := by decide

theorem cmpOP_total : ∀ a b : Option Position,
    cmpOrderedPosition a b ≠ Ordering.gt → a ≠ b →
    cmpOrderedPosition b a = Ordering.gt := by decide

theorem lookup_update (kb : List (Char × Option Position)) (ch : Char)
    (nv : Option Position) (c : Char) :
    (kb.map (fun p => if p.1 = ch then (p.1, nv) else p)).lookup c
      = (kb.lookup c).map (fun v => if c = ch then nv else v) := by
  induction kb with
  | nil => rfl
  | cons q kb ih =>
    obtain ⟨k, v⟩ := q
    have hhead : ((if (k, v).1 = ch then ((k, v).1, nv) else (k, v)) :
        Char × Option Position) = (k, if k = ch then nv else v) := by
      by_cases hk : k = ch <;> simp [hk]
    rw [List.map_cons, hhead, List.lookup_cons, List.lookup_cons]
    by_cases hc : c = k
    · subst hc
      simp [beq_self_eq_true]
    · simp [beq_false_of_ne hc, ih]

theorem update_fst_map (kb : List (Char × Option Position)) (ch : Char)
    (nv : Option Position) :
    (kb.map (fun p => if p.1 = ch then (p.1, nv) else p)).map Prod.fst
      = kb.map Prod.fst := by
  rw [List.map_map]
  apply List.map_congr_left
  intro p hp
  by_cases h : p.1 = ch <;> simp [h]

theorem update_keyboard_keys {ls : List Letter}
    {kb kb' : List (Char × Option Position)}
    (h : Game.update_keyboard kb ls = some kb') :
    kb'.map Prod.fst = kb.map Prod.fst := by
  induction ls generalizing kb with
  | nil =>
    obtain rfl := Option.some.inj h
    rfl
  | cons l ls ih =>
    simp only [Game.update_keyboard] at h
    cases hl : kb.lookup l.letter with
    | none => rw [hl] at h; simp at h
    | some cur =>
      rw [hl] at h
      simp only at h
      by_cases hgt : cmpOrderedPosition (some l.position) cur = Ordering.gt
      · rw [if_pos hgt] at h
        rw [ih h]
        exact update_fst_map kb l.letter (some l.position)
      · rw [if_neg hgt] at h
        exact ih h

theorem update_keyboard_isSome {ls : List Letter}
    {kb : List (Char × Option Position)}
    (h : ∀ l ∈ ls, (kb.lookup l.letter).isSome = true) :
    ∃ kb', Game.update_keyboard kb ls = some kb' := by
  induction ls generalizing kb with
  | nil => exact ⟨kb, rfl⟩
  | cons l ls ih =>
    have h0 := h l (by simp)
    cases hl : kb.lookup l.letter with
    | none => rw [hl] at h0; simp at h0
    | some cur =>
      by_cases hgt : cmpOrderedPosition (some l.position) cur = Ordering.gt
      · obtain ⟨kb', hkb'⟩ := @ih
          (kb.map (fun p => if p.1 = l.letter then (p.1, some l.position) else p))
          (by
            intro x hx
            rw [lookup_update]
            have hx2 := h x (by simp [hx])
            cases hxx : kb.lookup x.letter with
            | none => rw [hxx] at hx2; simp at hx2
            | some vv => simp)
        refine ⟨kb', ?_⟩
        simp only [Game.update_keyboard, hl]
        rw [if_pos hgt]
        exact hkb'
      · obtain ⟨kb', hkb'⟩ := @ih kb
          (fun x hx => h x (by simp [hx]))
        refine ⟨kb', ?_⟩
        simp only [Game.update_keyboard, hl]
        rw [if_neg hgt]
        exact hkb'

theorem update_keyboard_monotone {ls : List Letter}
    {kb kb' : List (Char × Option Position)}
    (h : Game.update_keyboard kb ls = some kb') {c : Char}
    {v : Option Position} (hv : kb.lookup c = some v) :
    ∃ v', kb'.lookup c = some v' ∧ cmpOrderedPosition v v' ≠ Ordering.gt := by
  induction ls generalizing kb v with
  | nil =>
    obtain rfl := Option.some.inj h
    exact ⟨v, hv, cmpOP_not_gt_refl v⟩
  | cons l ls ih =>
    simp only [Game.update_keyboard] at h
    cases hl : kb.lookup l.letter with
    | none => rw [hl] at h; simp at h
    | some cur =>
      rw [hl] at h
      simp only at h
      by_cases hgt : cmpOrderedPosition (some l.position) cur = Ordering.gt
      · rw [if_pos hgt] at h
        have hv1 : (kb.map (fun p =>
            if p.1 = l.letter then (p.1, some l.position) else p)).lookup c
            = some (if c = l.letter then some l.position else v) := by
          rw [lookup_update, hv]
          rfl
        by_cases hc : c = l.letter
        · rw [if_pos hc] at hv1
          have hvcur : v = cur := by
            rw [hc] at hv
            exact Option.some.inj (hv.symm.trans hl)
          obtain ⟨v', hv', hcmp⟩ := ih h hv1
          refine ⟨v', hv', ?_⟩
          rw [hvcur]
          exact cmpOP_not_gt_trans cur (some l.position) v'
            (cmpOP_gt_asymm _ _ hgt) hcmp
        · rw [if_neg hc] at hv1
          exact ih h hv1
      · rw [if_neg hgt] at h
        exact ih h hv

theorem update_keyboard_untouched {ls : List Letter}
    {kb kb' : List (Char × Option Position)}
    (h : Game.update_keyboard kb ls = some kb') {c : Char}
    (hc : ∀ l ∈ ls, l.letter ≠ c) :
    kb'.lookup c = kb.lookup c := by
  induction ls generalizing kb with
  | nil =>
    obtain rfl := Option.some.inj h
    rfl
  | cons l ls ih =>
    simp only [Game.update_keyboard] at h
    cases hl : kb.lookup l.letter with
    | none => rw [hl] at h; simp at h
    | some cur =>
      rw [hl] at h
      simp only at h
      have hcl : l.letter ≠ c := hc l (by simp)
      by_cases hgt : cmpOrderedPosition (some l.position) cur = Ordering.gt
      · rw [if_pos hgt] at h
        rw [ih h (fun x hx => hc x (by simp [hx]))]
        rw [lookup_update]
        have hfun : (fun (v : Option Position) =>
            if c = l.letter then some l.position else v) = id := by
          funext v
          rw [if_neg (fun hcc => hcl hcc.symm)]
          rfl
        rw [hfun, Option.map_id]
        rfl
      · rw [if_neg hgt] at h
        exact ih h (fun x hx => hc x (by simp [hx]))

theorem forall2_exists_left {α β : Type} {R : α → β → Prop} {xs : List α}
    {ys : List β} (h : List.Forall₂ R xs ys) {b : β} (hb : b ∈ ys) :
    ∃ a ∈ xs, R a b := by
  induction h with
  | nil => simp at hb
  | cons hr hrest ih =>
    rcases List.mem_cons.mp hb with rfl | hb2
    · exact ⟨_, by simp, hr⟩
    · obtain ⟨a, ha, hra⟩ := ih hb2
      exact ⟨a, by simp [ha], hra⟩

theorem score_letters_chars {word gU : List Char} {cmap : Char → Nat}
    {rem : Char → Nat} {w : List Letter}
    (hs : score_deferred word cmap (optionalLetters word gU) rem = some w) :
    ∀ l ∈ w, ∃ c ∈ gU, l.letter = c ∨ l.letter = toAsciiUppercase c := by
  intro l hl
  obtain ⟨p, hp, hR⟩ := forall2_exists_left (score_deferred_forall2 hs) hl
  have hp1 : p.1 ∈ gU := optionalLetters_fst_mem hp
  unfold optionalLetters at hp
  obtain ⟨q, hq, rfl⟩ := List.mem_map.mp hp
  simp only [ScoredAt] at hR
  cases hsc : Letter.simple_check_letter_pair q.1 q.2 word with
  | some l0 =>
    rw [hsc] at hR
    subst hR
    exact ⟨q.1, hp1, Or.inl (simple_check_some hsc).1⟩
  | none =>
    rw [hsc] at hR
    exact ⟨q.1, hp1, Or.inr hR.1⟩

/-! ## Claim C1: repeated-letter capacity bound -/

/-- C1.  For every 5-letter uppercase secret word and every valid guess, and
for every letter `L`, the number of positions of the `make_guess` result whose
letter is `L` and whose classification is `WrongPosition` or `Correct` never
exceeds the number of occurrences of `L` in the secret word. -/
theorem make_guess_letter_count_le (VW : List (List Char)) (game : Game)
    (guess : List Char) (w : List Letter) (game2 : Game) (L : Char)
    (hw5 : game.word.length = 5)
    (hwA : ∀ c ∈ game.word, c ∈ ALPHABET)
    (h : Game.make_guess VW game guess = some (Except.ok w, game2)) :
    countLetterWPC L w ≤ game.word.count L := by
  rcases make_guess_some_elim h with ⟨e, he, -, -⟩ | ⟨w0, hw0, hok, hs, -, -⟩
  · simp at he
  · obtain rfl : w0 = w := by
      injection hw0.symm
    have hupper : ∀ p ∈ optionalLetters game.word (guess.map toAsciiUppercase),
        toAsciiUppercase p.1 = p.1 :=
      fun p hp => mem_map_upper_fixed (optionalLetters_fst_mem hp)
    have h1 := score_deferred_countWPC L hs hupper
    rw [countP_wpc_eq_correct, ← correct_letters_count_eq_countP] at h1
    have h2 := correct_letters_count_le game.word (guess.map toAsciiUppercase) L
    omega

theorem simple_check_position_iff {a b : Char} {word : List Char} {l : Letter}
    (h : Letter.simple_check_letter_pair a b word = some l) :
    l.position = Position.Correct ↔ a = b := by
  unfold Letter.simple_check_letter_pair at h
  by_cases hab : a = b
  · rw [if_pos hab] at h
    obtain rfl := Option.some.inj h
    simp [hab]
  · rw [if_neg hab] at h
    split at h
    · obtain rfl := Option.some.inj h
      simp [hab]
    · simp at h

theorem simple_check_none_ne {a b : Char} {word : List Char}
    (h : Letter.simple_check_letter_pair a b word = none) : a ≠ b := by
  intro hab
  unfold Letter.simple_check_letter_pair at h
  rw [if_pos hab] at h
  simp at h

/-! ## Claim C3: Correct positions are exactly the matching positions -/

/-- C3.  For every 5-letter uppercase secret and valid guess, the number of
`Correct` classifications equals the number of index positions at which the
uppercased guess character equals the secret character, and position `i` is
classified `Correct` iff the uppercased guess character at `i` equals the
secret character at `i`. -/
theorem make_guess_correct_iff (VW : List (List Char)) (game : Game)
    (guess : List Char) (w : List Letter) (game2 : Game)
    (hw5 : game.word.length = 5)
    (hwA : ∀ c ∈ game.word, c ∈ ALPHABET)
    (h : Game.make_guess VW game guess = some (Except.ok w, game2)) :
    countCorrect w = ((guess.map toAsciiUppercase).zip game.word).countP
        (fun p => p.1 = p.2)
    ∧ ∀ i, i < 5 →
      ((w.getD i (Letter.new 'A' Position.NotInWord)).position = Position.Correct
        ↔ (guess.map toAsciiUppercase).getD i 'A' = game.word.getD i 'A') := by
  rcases make_guess_some_elim h with ⟨e, he, -, -⟩ | ⟨w0, hw0, hok, hs, -, -⟩
  · simp at he
  · have hww : w = w0 := Except.ok.inj hw0
    subst hww
    obtain ⟨hascii, hulen, hmem⟩ := of_is_valid_guess_ok hok
    have hglen : (guess.map toAsciiUppercase).length = 5 := by
      rw [← utf8Len_eq_length hascii, hulen]
    have hzlen : ((guess.map toAsciiUppercase).zip game.word).length = 5 := by
      rw [List.length_zip, hglen, hw5]
      simp
    have htake : ((guess.map toAsciiUppercase).zip game.word).take 5
        = (guess.map toAsciiUppercase).zip game.word := by
      conv in List.take 5 _ => rw [← hzlen]
      exact List.take_length _
    have hopts : optionalLetters game.word (guess.map toAsciiUppercase)
        = ((guess.map toAsciiUppercase).zip game.word).map
          (fun p => (p.1, Letter.simple_check_letter_pair p.1 p.2 game.word)) := by
      unfold optionalLetters
      rw [htake]
    have hf2 := score_deferred_forall2 hs
    constructor
    · have hcount : (optionalLetters game.word
            (guess.map toAsciiUppercase)).countP correctSomePred
          = countCorrect w := by
        apply countP_eq_of_forall2 hf2
        intro a b hab
        simp only [ScoredAt] at hab
        cases hsc : a.2 with
        | some l0 =>
          rw [hsc] at hab
          subst hab
          simp [correctSomePred, hsc]
        | none =>
          rw [hsc] at hab
          simp [correctSomePred, hsc, hab.2]
      rw [← hcount, hopts, List.countP_map]
      congr 1
      funext p
      exact simple_check_correctSomePred p.1 p.2 game.word
    · intro i hi
      rw [hopts] at hf2
      have hlens := List.forall₂_iff_get.mp hf2
      have holen : (((guess.map toAsciiUppercase).zip game.word).map
          (fun p => (p.1, Letter.simple_check_letter_pair p.1 p.2
            game.word))).length = 5 := by
        rw [List.length_map, hzlen]
      have hwlen : w.length = 5 := by
        rw [← hlens.1, holen]
      have hR := hlens.2 i (by omega) (by omega)
      simp only [List.get_eq_getElem, List.getElem_map, List.getElem_zip] at hR
      simp only [ScoredAt] at hR
      rw [List.getD_eq_getElem w _ (by omega),
        List.getD_eq_getElem _ _ (by omega),
        List.getD_eq_getElem _ _ (by omega)]
      simp only [List.getElem_map]
      split at hR
      · rename_i l0 hsc
        rw [hR]
        exact simple_check_position_iff hsc
      · rename_i hsc
        constructor
        · intro hc
          exact absurd hc hR.2
        · intro heq
          exact absurd heq (simple_check_none_ne hsc)

theorem lookup_isSome_iff {kb : List (Char × Option Position)} {c : Char} :
    (kb.lookup c).isSome = true ↔ c ∈ kb.map Prod.fst := by
  induction kb with
  | nil => simp
  | cons q kb ih =>
    obtain ⟨k, v⟩ := q
    rw [List.lookup_cons]
    by_cases hc : c = k
    · subst hc
      simp
    · simp [beq_false_of_ne hc, ih, hc]

/-! ## Claim C4: keyboard classifications never move backward -/

/-- C4.  Across any accepted or rejected `make_guess` call, each letter's
recorded keyboard classification is non-decreasing under the total order
`unknown < NotInWord < WrongPosition < Correct` (the comparison of
`OrderedPosition`), and an entry is overwritten only with a strictly
higher-ranked classification; chaining this over the calls of a session gives
monotonicity for any sequence of guesses. -/
theorem make_guess_keyboard_monotone (VW : List (List Char)) (game : Game)
    (guess : List Char) (r : Except GuessError (List Letter)) (game2 : Game)
    (c : Char) (v v2 : Option Position)
    (h : Game.make_guess VW game guess = some (r, game2))
    (hv : game.keyboard.lookup c = some v)
    (hv2 : game2.keyboard.lookup c = some v2) :
    cmpOrderedPosition v v2 ≠ Ordering.gt
    ∧ (v2 ≠ v → cmpOrderedPosition v2 v = Ordering.gt) := by
  rcases make_guess_some_elim h with ⟨e, -, rfl, -⟩ | ⟨w0, -, -, -, hk, -⟩
  · obtain rfl : v = v2 := Option.some.inj (hv.symm.trans hv2)
    exact ⟨cmpOP_not_gt_refl v, fun hne => absurd rfl (Ne.symm hne)⟩
  · obtain ⟨v3, hv3, hcmp⟩ := update_keyboard_monotone hk hv
    obtain rfl : v3 = v2 := Option.some.inj (hv3.symm.trans hv2)
    exact ⟨hcmp, fun hne => cmpOP_total v v3 hcmp (Ne.symm hne)⟩

/-! ## Claim C10: frame property of the keyboard update -/

/-- C10.  An accepted guess leaves the keyboard entry of every uppercase
letter that does not occur in the uppercased guess string unchanged: only
letters of the freshly computed result can be modified. -/
theorem make_guess_keyboard_frame (VW : List (List Char)) (game : Game)
    (guess : List Char) (w : List Letter) (game2 : Game) (c : Char)
    (h : Game.make_guess VW game guess = some (Except.ok w, game2))
    (hc : c ∉ guess.map toAsciiUppercase) :
    game2.keyboard.lookup c = game.keyboard.lookup c := by
  rcases make_guess_some_elim h with ⟨e, he, -, -⟩ | ⟨w0, hw0, -, hs, hk, -⟩
  · simp at he
  · have hww : w = w0 := Except.ok.inj hw0
    subst hww
    apply update_keyboard_untouched hk
    intro l hl hlc
    apply hc
    obtain ⟨x, hx, hlx⟩ := score_letters_chars hs l hl
    rcases hlx with hxx | hxx
    · rw [← hlc, hxx]
      exact hx
    · rw [← hlc, hxx, mem_map_upper_fixed hx]
      exact hx

/-! ## Claim C7: the keyboard always contains all 26 letters -/

/-- C7.  The keyboard map contains an entry for each of the 26 uppercase
letters at construction (all mapped to unknown, i.e. `none`); no `make_guess`
call adds or removes keys; hence a lookup by an uppercase letter that
succeeded before a call still succeeds after it. -/
theorem keyboard_complete_invariant :
    (∀ c ∈ ALPHABET, Game.new_keyboard_map.lookup c = some none)
    ∧ (∀ (VW : List (List Char)) (game : Game) (guess : List Char)
        (r : Except GuessError (List Letter)) (game2 : Game),
        Game.make_guess VW game guess = some (r, game2) →
        game2.keyboard.map Prod.fst = game.keyboard.map Prod.fst)
    ∧ (∀ (VW : List (List Char)) (game : Game) (guess : List Char)
        (r : Except GuessError (List Letter)) (game2 : Game),
        Game.make_guess VW game guess = some (r, game2) →
        ∀ c ∈ ALPHABET, (game.keyboard.lookup c).isSome = true →
        (game2.keyboard.lookup c).isSome = true) := by
  have hkeys : ∀ (VW : List (List Char)) (game : Game) (guess : List Char)
      (r : Except GuessError (List Letter)) (game2 : Game),
      Game.make_guess VW game guess = some (r, game2) →
      game2.keyboard.map Prod.fst = game.keyboard.map Prod.fst := by
    intro VW game guess r game2 h
    rcases make_guess_some_elim h with ⟨e, -, rfl, -⟩ | ⟨w0, -, -, -, hk, -⟩
    · rfl
    · exact update_keyboard_keys hk
  refine ⟨by decide, hkeys, ?_⟩
  intro VW game guess r game2 h c hcA hsome
  rw [lookup_isSome_iff] at hsome ⊢
  rw [hkeys VW game guess r game2 h]
  exact hsome

/-! ## Claim C8: the defect branch is unreachable -/

/-- C8.  For a 5-letter uppercase secret, a well-formed word list, a complete
keyboard and a guess that passes validation, the invariant
`total_in_secret[L] >= confirmed_correct[L]` holds for every letter `L`, and
`make_guess` returns a score (no `none`, i.e. the `Ordering::Less`
`unreachable!` branch is never taken and no `expect` panics). -/
theorem make_guess_no_panic (VW : List (List Char)) (game : Game)
    (guess : List Char)
    (hw5 : game.word.length = 5)
    (hwA : ∀ c ∈ game.word, c ∈ ALPHABET)
    (hVW : wellFormedWordList VW)
    (hkb : ∀ c ∈ ALPHABET, (game.keyboard.lookup c).isSome = true)
    (hok : Game.is_valid_guess VW guess = Except.ok ()) :
    (∀ L, correct_letters_count
        (optionalLetters game.word (guess.map toAsciiUppercase)) L
        ≤ game.word.count L)
    ∧ ∃ w game2, Game.make_guess VW game guess
        = some (Except.ok w, game2) := by
  refine ⟨fun L => correct_letters_count_le game.word
    (guess.map toAsciiUppercase) L, ?_⟩
  obtain ⟨hascii, hulen, hmem⟩ := of_is_valid_guess_ok hok
  have hglen : (guess.map toAsciiUppercase).length = 5 := by
    rw [← utf8Len_eq_length hascii, hulen]
  have hzlen : ((guess.map toAsciiUppercase).zip game.word).length = 5 := by
    rw [List.length_zip, hglen, hw5]
    simp
  have hchars : ∀ c ∈ guess.map toAsciiUppercase, c ∈ ALPHABET :=
    (hVW _ hmem).2
  obtain ⟨w, hw⟩ := @score_deferred_isSome
    game.word
    (fun c => correct_letters_count
      (optionalLetters game.word (guess.map toAsciiUppercase)) c)
    (optionalLetters game.word (guess.map toAsciiUppercase))
    (fun c => game.word.count c - correct_letters_count
      (optionalLetters game.word (guess.map toAsciiUppercase)) c)
    (fun p hp _ => hchars p.1 (optionalLetters_fst_mem hp))
    (fun p hp _ => correct_letters_count_le game.word
      (guess.map toAsciiUppercase) p.1)
  have hletters : ∀ l ∈ w, (game.keyboard.lookup l.letter).isSome = true := by
    intro l hl
    obtain ⟨x, hx, hlx⟩ := score_letters_chars hw l hl
    have hxA : x ∈ ALPHABET := hchars x hx
    have hfix : toAsciiUppercase x = x := alphabet_fixed_upper x hxA
    apply hkb
    rcases hlx with hxx | hxx
    · rw [hxx]
      exact hxA
    · rw [hxx, hfix]
      exact hxA
  obtain ⟨kb2, hkb2⟩ := update_keyboard_isSome hletters
  refine ⟨w, { word := game.word, keyboard := kb2 }, ?_⟩
  unfold Game.make_guess
  rw [hok]
  simp only
  rw [if_neg (by rw [hzlen]; omega)]
  rw [hw]
  simp [hkb2]

theorem is_valid_guess_ok_of_contains {VW : List (List Char)} {s : List Char}
    (hascii : (s.map toAsciiUppercase).all isAsciiChar = true)
    (hlen : utf8Len (s.map toAsciiUppercase) = 5)
    (hmem : s.map toAsciiUppercase ∈ VW) :
    Game.is_valid_guess VW s = Except.ok () := by
  have hcont : (List.contains VW (s.map toAsciiUppercase)) = true := by
    simpa [List.contains] using hmem
  simp only [Game.is_valid_guess]
  simp [hascii, hlen, hcont, hmem]

/-! ## Claim C2: the BLEEP/EERIE duplicate-letter scenarios -/

/-- C2.  With secret `BLEEP` the guess `EERIE` scores exactly
`[WrongPosition, WrongPosition, NotInWord, NotInWord, NotInWord]`, and with
secret `EERIE` the guess `BLEEP` scores exactly
`[NotInWord, NotInWord, WrongPosition, WrongPosition, NotInWord]`: earlier
guess positions claim the remaining capacity of a repeated letter first. -/
theorem make_guess_bleep_eerie_scenarios (VW : List (List Char))
    (h1 : ['E', 'E', 'R', 'I', 'E'] ∈ VW) (h2 : ['B', 'L', 'E', 'E', 'P'] ∈ VW) :
    (∃ g1, Game.make_guess VW gameBleep ['E', 'E', 'R', 'I', 'E']
      = some (Except.ok wordEerieScored, g1))
    ∧ (∃ g2, Game.make_guess VW gameEerie ['B', 'L', 'E', 'E', 'P']
      = some (Except.ok wordBleepScored, g2)) := by
  constructor
  · have hok : Game.is_valid_guess VW ['E', 'E', 'R', 'I', 'E']
        = Except.ok () :=
      is_valid_guess_ok_of_contains (by decide) (by decide)
        (by rw [show ['E', 'E', 'R', 'I', 'E'].map toAsciiUppercase
              = ['E', 'E', 'R', 'I', 'E'] from by decide]; exact h1)
    refine ⟨gameBleepAfter, ?_⟩
    unfold Game.make_guess
    rw [hok]
    rfl
  · have hok : Game.is_valid_guess VW ['B', 'L', 'E', 'E', 'P']
        = Except.ok () :=
      is_valid_guess_ok_of_contains (by decide) (by decide)
        (by rw [show ['B', 'L', 'E', 'E', 'P'].map toAsciiUppercase
              = ['B', 'L', 'E', 'E', 'P'] from by decide]; exact h2)
    refine ⟨gameEerieAfter, ?_⟩
    unfold Game.make_guess
    rw [hok]
    rfl

/-- Witness for C1: in the `BLEEP`/`EERIE` scenario the WrongPosition-or-
Correct count of the letter `E` is bounded by its occurrences in `BLEEP`. -/
theorem make_guess_letter_count_le_witness :
    countLetterWPC 'E' wordEerieScored ≤ gameBleep.word.count 'E' :=
  make_guess_letter_count_le testWords gameBleep ['E', 'E', 'R', 'I', 'E']
    wordEerieScored gameBleepAfter 'E' (by decide) (by decide) (by decide)

/-- Witness for C2 at the concrete word list `testWords`. -/
theorem make_guess_bleep_eerie_scenarios_witness :
    (∃ g1, Game.make_guess testWords gameBleep ['E', 'E', 'R', 'I', 'E']
      = some (Except.ok wordEerieScored, g1))
    ∧ (∃ g2, Game.make_guess testWords gameEerie ['B', 'L', 'E', 'E', 'P']
      = some (Except.ok wordBleepScored, g2)) :=
  make_guess_bleep_eerie_scenarios testWords (by decide) (by decide)

/-- Witness for C3 in the `EERIE`/`BLEEP` scenario. -/
theorem make_guess_correct_iff_witness :
    countCorrect wordBleepScored =
      ((['B', 'L', 'E', 'E', 'P'].map toAsciiUppercase).zip
        gameEerie.word).countP (fun p => p.1 = p.2)
    ∧ ∀ i, i < 5 →
      ((wordBleepScored.getD i
          (Letter.new 'A' Position.NotInWord)).position = Position.Correct
        ↔ (['B', 'L', 'E', 'E', 'P'].map toAsciiUppercase).getD i 'A'
          = gameEerie.word.getD i 'A') :=
  make_guess_correct_iff testWords gameEerie ['B', 'L', 'E', 'E', 'P']
    wordBleepScored gameEerieAfter (by decide) (by decide) (by decide)

/-- Witness for C4: guessing `EERIE` against `BLEEP` moves the keyboard
entry of `E` from unknown to `WrongPosition`, a strict upgrade. -/
theorem make_guess_keyboard_monotone_witness :
    cmpOrderedPosition none (some Position.WrongPosition) ≠ Ordering.gt
    ∧ (some Position.WrongPosition ≠ none →
        cmpOrderedPosition (some Position.WrongPosition) none = Ordering.gt) :=
  make_guess_keyboard_monotone testWords gameBleep ['E', 'E', 'R', 'I', 'E']
    (Except.ok wordEerieScored) gameBleepAfter 'E' none
    (some Position.WrongPosition) (by decide) (by decide) (by decide)

/-- Witness for C7 at concrete games and letters. -/
theorem keyboard_complete_invariant_witness :
    Game.new_keyboard_map.lookup 'Q' = some none
    ∧ gameBleepAfter.keyboard.map Prod.fst
      = gameBleep.keyboard.map Prod.fst
    ∧ (gameBleepAfter.keyboard.lookup 'Z').isSome = true :=
  ⟨keyboard_complete_invariant.1 'Q' (by decide),
   keyboard_complete_invariant.2.1 testWords gameBleep ['E', 'E', 'R', 'I', 'E']
     (Except.ok wordEerieScored) gameBleepAfter (by decide),
   keyboard_complete_invariant.2.2 testWords gameBleep ['E', 'E', 'R', 'I', 'E']
     (Except.ok wordEerieScored) gameBleepAfter (by decide) 'Z' (by decide)
     (by decide)⟩

/-- Witness for C8: the lowercase guess `eerie` against `BLEEP` scores
without reaching any panic branch. -/
theorem make_guess_no_panic_witness :
    (∀ L, correct_letters_count
        (optionalLetters gameBleep.word
          (['e', 'e', 'r', 'i', 'e'].map toAsciiUppercase)) L
        ≤ gameBleep.word.count L)
    ∧ ∃ w game2, Game.make_guess testWords gameBleep ['e', 'e', 'r', 'i', 'e']
        = some (Except.ok w, game2) :=
  make_guess_no_panic testWords gameBleep ['e', 'e', 'r', 'i', 'e']
    (by decide) (by decide) (by decide) (by decide) (by decide)

/-- Witness for C10: `Z` does not occur in `EERIE`, so its keyboard entry
is untouched. -/
theorem make_guess_keyboard_frame_witness :
    gameBleepAfter.keyboard.lookup 'Z' = gameBleep.keyboard.lookup 'Z' :=
  make_guess_keyboard_frame testWords gameBleep ['E', 'E', 'R', 'I', 'E']
    wordEerieScored gameBleepAfter 'Z' (by decide) (by decide)

end Wordle
